import Mathlib

/-!
# A verification development for the append-only-log B-tree (`index.js`)

This file gives a shallow embedding of the copy-on-write B-tree that stores
its nodes inside entries of an append-only log, and proves properties of the
embedded operations.

Modelling conventions, fixed once here:

* Keys and values are byte strings, modelled as `List Nat`.  The source
  compares keys with `cmp (a, b) = a < b ? -1 : b < a ? 1 : 0`; per the
  specification (§4.C) this is lexicographic byte-string comparison, and it
  is modelled as lexicographic order on byte lists.
* The log (the `feed`) is a `List Block`; `Block.header` is the header
  record (the literal payload is irrelevant, only its existence matters) and
  `Block.node` is a data record.  The wire codec (`messages.js`, not part of
  the sources here) is modelled from the spec as the identity on structured
  records: a data record carries its fields directly, and decoding the
  header under the `Node` codec fails (the spec's `Corrupt` outcome), since
  the literal header payload is not a valid `Node` record.
* Asynchronous calls are sequentialised; a rejected promise is `none`.
  Unbounded loops take an explicit fuel argument; running out of fuel is
  also `none` (the operations are run with provably sufficient fuel).
* The source caches lazily resolved values in their slots
  (`key.value = k`, `child.value = node`, the per-batch block map).
  Resolution is deterministic, so the functional model re-resolves instead
  of caching; the caches themselves are modelled separately (and faithfully)
  for the block-cache claim, where the read counts are what matters.
-/

namespace YoloBTree

/-- Byte strings: keys and values. -/
abbrev Bytes := List Nat

/-- Strict lexicographic order on byte strings, as a boolean test.
This models the `<` relation the source's `cmp` applies to two keys. -/
def lexLt : Bytes → Bytes → Bool
  | [], [] => false
  | [], _ :: _ => true
  | _ :: _, [] => false
  | a :: as, b :: bs => if a < b then true else if b < a then false else lexLt as bs

/-- `cmp`, exactly as in the source: `a < b ? -1 : b < a ? 1 : 0`. -/
def cmp (a b : Bytes) : Int :=
  if lexLt a b then -1 else if lexLt b a then 1 else 0

/-! ## The log and the on-log records

A log entry is either the header record or a data record (`Node` in the wire
codec): a key, an optional value, and the embedded index, a list of levels.
Each level holds the key references (sequence numbers of the entries carrying
the key bytes) and the child references (`(seq, offset)` pairs; the codec's
flat `seq, offset, …` list is modelled already paired). -/

/-- One level of an embedded index (`YoloIndex`): `keys` are `KeyRef` seqs,
`children` are `(seq, offset)` pairs. -/
structure Level where
  keys : List Nat
  children : List (Nat × Nat)
deriving DecidableEq

/-- A decoded data record (`Node` in `messages.js`). -/
structure NodeRec where
  key : Bytes
  value : Option Bytes
  index : List Level
deriving DecidableEq

/-- One appended log record. -/
inductive Block where
  | header
  | node (e : NodeRec)
deriving DecidableEq

/-- The append-only log (`feed`); `feed.length` is `List.length`. -/
abbrev Log := List Block

/-- `MAX_CHILDREN` from the source. -/
def MAX_CHILDREN : Nat := 3

/-- `BTree.ready()`: if the log length is not `> 1`, append the header.
(The source's guard is `feed.length > 1`, so it appends on lengths 0 and 1.) -/
def ready (log : Log) : Log :=
  if log.length > 1 then log else log ++ [Block.header]

/-- `BTree.getBlock(seq)`: read the record at `seq` and decode it with the
`Node` codec.  Reading out of bounds fails, and decoding the header record
fails (its literal payload is not a valid `Node` record — `Corrupt`).
Were a codec lenient enough to accept the header's bytes, the record would
still carry no index and the subsequent `getTreeNode` would fail instead,
so every conclusion drawn from this failure is unchanged. -/
def getBlockL (log : Log) (seq : Nat) : Option NodeRec :=
  match log[seq]? with
  | some (Block.node e) => some e
  | _ => none

/-- A `Key` slot of an in-memory tree node: the seq of the entry carrying the
key bytes, plus the bytes themselves when they were known at construction
time (the source also writes lazily resolved bytes back into the slot; the
model re-resolves instead, see the header comment). -/
structure KeyR where
  seq : Nat
  value : Option Bytes
deriving DecidableEq

/-- An in-memory tree node (`TreeNode`): the `(seq, key)` of the block entry
it was decoded from (`none` for nodes freshly created during a `put`), its
key slots, and its child slots.  A child slot `(seq, offset, value)` mirrors
the source's `Child` class: the `(seq, offset)` reference and the resolved
in-memory node when present. -/
inductive MatNode : Type where
  | mk : Option Nat → Option Bytes → List KeyR → List (Nat × Nat × Option MatNode) → MatNode

/-- Seq of the block entry this node was decoded from. -/
def MatNode.blockSeq : MatNode → Option Nat
  | .mk b _ _ _ => b

/-- Key of the block entry this node was decoded from. -/
def MatNode.blockKey : MatNode → Option Bytes
  | .mk _ k _ _ => k

/-- The node's key slots. -/
def MatNode.keys : MatNode → List KeyR
  | .mk _ _ ks _ => ks

/-- The node's child slots. -/
def MatNode.children : MatNode → List (Nat × Nat × Option MatNode)
  | .mk _ _ _ cs => cs

/-- Replace the key slots. -/
def MatNode.withKeys : MatNode → List KeyR → MatNode
  | .mk b k _ cs, ks => .mk b k ks cs

/-- Replace the child slots. -/
def MatNode.withChildren : MatNode → List (Nat × Nat × Option MatNode) → MatNode
  | .mk b k ks _, cs => .mk b k ks cs

/-- `BlockEntry.getTreeNode(offset)`: inflate the entry's index and build the
`TreeNode` for the level at `offset`; key slots get `value = null`, child
slots get `value = null`. -/
def getTreeNodeL (e : NodeRec) (seq : Nat) (offset : Nat) : Option MatNode :=
  (e.index[offset]?).map fun lv =>
    MatNode.mk (some seq) (some e.key)
      (lv.keys.map fun s => ⟨s, none⟩)
      (lv.children.map fun p => (p.1, p.2, none))

/-- Resolve a key slot in the context of the node's own block entry
(`TreeNode.getKey`): the cached bytes if present; the block's own key if the
slot's seq equals the block's seq; otherwise the key of log entry `seq`. -/
def resolveKeyR (log : Log) (blockSeq : Option Nat) (blockKey : Option Bytes)
    (kr : KeyR) : Option Bytes :=
  match kr.value with
  | some v => some v
  | none =>
    if blockSeq = some kr.seq then blockKey
    else (getBlockL log kr.seq).map (·.key)

/-- `TreeNode.getKey(i)`: resolve the `i`-th key slot. -/
def getKeyM (log : Log) (n : MatNode) (i : Nat) : Option Bytes :=
  match n.keys[i]? with
  | none => none
  | some kr => resolveKeyR log n.blockSeq n.blockKey kr

/-- Resolve one child slot (`TreeNode.getChildNode` body): the cached node if
present; otherwise read the block at the slot's seq (the source's same-entry
short-circuit reuses the already decoded block — the same record) and take
the tree node at the slot's offset. -/
def matSlot (log : Log) (slot : Nat × Nat × Option MatNode) : Option MatNode :=
  match slot with
  | (_, _, some c) => some c
  | (s, o, none) => (getBlockL log s).bind fun e => getTreeNodeL e s o

/-- `TreeNode.getChildNode(i)`. -/
def matChild (log : Log) (n : MatNode) (i : Nat) : Option MatNode :=
  (n.children[i]?).bind (matSlot log)

/-- `BTree.getRoot()` after `ready`: `none` is a failed read (`Corrupt`),
`some none` is a null root (empty tree, log length `< 2`), `some (some n)`
is the tree node at offset 0 of the last entry. -/
def getRootL (log : Log) : Option (Option MatNode) :=
  if log.length < 2 then some none
  else
    match getBlockL log (log.length - 1) with
    | none => none
    | some e =>
      match getTreeNodeL e (log.length - 1) 0 with
      | none => none
      | some n => some (some n)

/-! ## Binary search, insertion, splitting

The source repeats one binary-search pattern (in `insertKey`, in `Batch.get`
and in the descent of `Batch.put`): shrink `[s, e)` around the probe; on an
equal key return the index; at loop exit `s = e` is the insertion point (the
source's `c < 0 ? e : s` equals `s` there, since `s = e`). The loop is
modelled with fuel; `e - s` shrinks every iteration, so fuel
`keys.length + 1` always suffices. -/

/-- The binary-search loop: `Sum.inl mid` when an equal key is found at
`mid`, `Sum.inr s` with the insertion point at loop exit. -/
def bsearchF (log : Log) (n : MatNode) (key : Bytes) : Nat → Nat → Nat → Option (Nat ⊕ Nat)
  | 0, _, _ => none
  | fuel + 1, s, e =>
    if s < e then
      let mid := (s + e) / 2
      match getKeyM log n mid with
      | none => none
      | some kb =>
        let c := cmp key kb
        if c = 0 then some (Sum.inl mid)
        else if c < 0 then bsearchF log n key fuel s mid
        else bsearchF log n key fuel (mid + 1) e
    else some (Sum.inr s)

/-- Binary search over all of the node's keys, with sufficient fuel. -/
def bsearchTop (log : Log) (n : MatNode) (key : Bytes) : Option (Nat ⊕ Nat) :=
  bsearchF log n key (n.keys.length + 1) 0 n.keys.length

/-- JS `splice(i, 0, x)`: insert at position `i`, clamped to the length. -/
def spliceIn (l : List α) (i : Nat) (x : α) : List α :=
  l.take i ++ x :: l.drop i

/-- The bytes `insertKey` compares the inserted key with (`key.value`).  The
target key always carries its bytes; a median popped out of a split carries
the bytes the source cached in the slot when it resolved them during this
operation — resolution is deterministic, so the model re-reads the key's
log entry instead (see the header comment). -/
def resolveProbe (log : Log) (kr : KeyR) : Option Bytes :=
  match kr.value with
  | some v => some v
  | none => (getBlockL log kr.seq).map (·.key)

/-- `TreeNode.insertKey(key, child)`: binary search; on an equal key
overwrite that slot in place and return `true`; otherwise splice the key at
the insertion point (and, when a child node is supplied, splice the slot
`Child(0, 0, child)` right after it) and return `keys.length < MAX_CHILDREN`
for the post-insert key count. -/
def insertKeyM (log : Log) (n : MatNode) (kr : KeyR) (child : Option MatNode) :
    Option (MatNode × Bool) :=
  match resolveProbe log kr with
  | none => none
  | some kb =>
    match bsearchTop log n kb with
    | none => none
    | some (Sum.inl mid) => some (n.withKeys (n.keys.set mid kr), true)
    | some (Sum.inr i) =>
      let ks := spliceIn n.keys i kr
      let cs :=
        match child with
        | some c => spliceIn n.children (i + 1) (0, 0, some c)
        | none => n.children
      some ((n.withKeys ks).withChildren cs, decide (ks.length < MAX_CHILDREN))

/-- The pop-into loop of `split`: pop up to `n` elements off the end of
`src`, appending each to `dst` (then the caller reverses `dst`).  The
source's loop would push `undefined` once `src` is empty; that never happens
where `split` is called (the node then has at least `MAX_CHILDREN` keys),
and the model stops popping instead. -/
def popMany : List α → List α → Nat → List α × List α
  | src, dst, 0 => (src, dst)
  | src, dst, n + 1 =>
    match src.getLast? with
    | none => (src, dst)
    | some x => popMany src.dropLast (dst ++ [x]) n

/-- `TreeNode.split()`: with `len = keys.length >> 1`, pop the last `len`
keys into the fresh right node (restoring their order with a reverse), pop
the median, and, when the node has children, pop the last `len + 1` child
slots into the right node.  The left node is the node itself; the right
node is fresh (`TreeNode.create`).  Popping the median off an empty key
list is the failure case. -/
def splitM (n : MatNode) : Option (MatNode × KeyR × MatNode) :=
  let len := n.keys.length / 2
  let p := popMany n.keys [] len
  let rkeys := p.2.reverse
  match p.1.getLast? with
  | none => none
  | some median =>
    let lkeys := p.1.dropLast
    let q :=
      if n.children.length ≠ 0 then
        let q0 := popMany n.children [] (len + 1)
        (q0.1, q0.2.reverse)
      else (n.children, [])
    some (MatNode.mk n.blockSeq n.blockKey lkeys q.1, median,
          MatNode.mk none none rkeys q.2)

/-! ## `put` -/

/-- The result a level of the `put` walk hands to its parent: either the
updated child needs no split, or it split into `(left, median, right)`. -/
inductive UpRes where
  | done (n : MatNode)
  | split (l : MatNode) (m : KeyR) (r : MatNode)

/-- Store a resolved (and, during a `put`, updated) node back into its child
slot, as `getChildNode`'s caching does: the slot keeps its `(seq, offset)`
and gains the node. -/
def setChildVal (cs : List (Nat × Nat × Option MatNode)) (i : Nat) (c : MatNode) :
    List (Nat × Nat × Option MatNode) :=
  match cs[i]? with
  | some (s, o, _) => cs.set i (s, o, some c)
  | none => cs

/-- The walk of `Batch.put` below the root, one recursive call per level
(the source's stack-driven loop).  At an internal node: binary search; on an
equal key replace that key slot with the target and rebuild (the subtrees
are untouched); otherwise descend into child `i`, then handle the child's
result — an updated child is stored in its slot; a split child is stored as
the left node, the median is inserted (with the right node as its new
right sibling), and if that makes this node overfull it splits in turn.
At a leaf: `insertKey(target)`, splitting when the leaf becomes full. -/
def putStepF (log : Log) (tseq : Nat) (kb : Bytes) : Nat → MatNode → Option UpRes
  | 0, _ => none
  | fuel + 1, n =>
    if n.children.length ≠ 0 then
      match bsearchTop log n kb with
      | none => none
      | some (Sum.inl mid) => some (UpRes.done (n.withKeys (n.keys.set mid ⟨tseq, some kb⟩)))
      | some (Sum.inr i) =>
        match matChild log n i with
        | none => none
        | some child =>
          match putStepF log tseq kb fuel child with
          | none => none
          | some (UpRes.done c) => some (UpRes.done (n.withChildren (setChildVal n.children i c)))
          | some (UpRes.split l m r) =>
            let n1 := n.withChildren (setChildVal n.children i l)
            match insertKeyM log n1 m (some r) with
            | none => none
            | some (n2, true) => some (UpRes.done n2)
            | some (n2, false) =>
              match splitM n2 with
              | none => none
              | some (l2, m2, r2) => some (UpRes.split l2 m2 r2)
    else
      match insertKeyM log n ⟨tseq, some kb⟩ none with
      | none => none
      | some (n1, true) => some (UpRes.done n1)
      | some (n1, false) =>
        match splitM n1 with
        | none => none
        | some (l2, m2, r2) => some (UpRes.split l2 m2 r2)

/-- The child-serialisation loop of `buildIndex`: left to right, a slot with
no resolved node keeps its `(seq, offset)` reference, a slot with a resolved
node is serialised recursively and referenced as `(newSeq, its offset)`.
(During a `put` every resolved slot holds a changed node — the walk marks
every visited node changed — so the source's `!child.value.changed` test is
the `value = null` test here.)  `rec` is the recursion one fuel level
down. -/
def buildChildren (seq : Nat)
    (rec : MatNode → List (Option Level) → Option (List (Option Level) × Nat)) :
    List (Nat × Nat × Option MatNode) → List (Option Level) →
    Option (List (Option Level) × List (Nat × Nat))
  | [], idx => some (idx, [])
  | (s, o, none) :: rest, idx =>
    (buildChildren seq rec rest idx).map fun r => (r.1, (s, o) :: r.2)
  | (_, _, some c) :: rest, idx =>
    match rec c idx with
    | none => none
    | some (idx1, coff) =>
      (buildChildren seq rec rest idx1).map fun r => (r.1, (seq, coff) :: r.2)

/-- `TreeNode.buildIndex(index, seq)`: reserve the next offset with a
placeholder, serialise the children, then store this node's level — its
keys' seqs and its children's references — at the reserved offset, and
return the offset. -/
def buildIndexF (seq : Nat) : Nat → MatNode → List (Option Level) → Option (List (Option Level) × Nat)
  | 0, _, _ => none
  | fuel + 1, n, idx =>
    let offset := idx.length
    match buildChildren seq (buildIndexF seq fuel) n.children (idx ++ [none]) with
    | none => none
    | some (idx2, cpairs) =>
      some (idx2.set offset (some ⟨n.keys.map KeyR.seq, cpairs⟩), offset)

/-- Collapse the placeholder slots after `buildIndex` has filled them all
(every reserved slot is stored before its call returns). -/
def fillIdx : List (Option Level) → Option (List Level)
  | [] => some []
  | none :: _ => none
  | some l :: t => (fillIdx t).map (l :: ·)

/-- `Batch._append(root, seq, key, value)`: serialise the changed spine from
`root` and append the one new data record `{ key, value, index }`. -/
def appendNode (l1 : Log) (root : MatNode) (seq : Nat) (k : Bytes) (v : Option Bytes) :
    Option Log :=
  match buildIndexF seq (l1.length + 2) root [] with
  | none => none
  | some (idx, _) =>
    (fillIdx idx).map fun levels => l1 ++ [Block.node ⟨k, v, levels⟩]

/-- `Batch.put(key, value)` as one operation on the log, returning the final
log and whether the put succeeded.  `getRoot` runs `ready` first (which may
itself append the header), then `seq` is read off as the log length.  A null
root is the first insert: the source appends `{ key, index }` for a
single-key, single-level tree — note it does NOT include `value` in that
record.  Otherwise walk and rebuild; when the root itself split, the new
root holds the median and the two halves (the fresh root's block
back-reference is never consulted before the append, so it is modelled
empty).  A failure after `ready` leaves the log as `ready` left it. -/
def putOp (log : Log) (k : Bytes) (v : Option Bytes) : Log × Bool :=
  let l1 := ready log
  match getRootL l1 with
  | none => (l1, false)
  | some none => (l1 ++ [Block.node ⟨k, none, [⟨[l1.length], []⟩]⟩], true)
  | some (some root) =>
    let seq := l1.length
    match putStepF l1 seq k l1.length root with
    | none => (l1, false)
    | some (UpRes.done r) =>
      match appendNode l1 r seq k v with
      | none => (l1, false)
      | some l2 => (l2, true)
    | some (UpRes.split l m r) =>
      match appendNode l1 (MatNode.mk none none [m] [(0, 0, some l), (0, 0, some r)]) seq k v with
      | none => (l1, false)
      | some l2 => (l2, true)

/-- A `put` as a fallible log transformer (rejection is `none`). -/
def putL (log : Log) (k : Bytes) (v : Option Bytes) : Option Log :=
  let r := putOp log k v
  if r.2 then some r.1 else none

/-- Run a sequence of puts from a fresh feed, requiring each to succeed. -/
def runPuts (ops : List (Bytes × Option Bytes)) : Option Log :=
  ops.foldlM (fun l p => putL l p.1 p.2) ([] : Log)

/-! ## `get` -/

/-- The walk of `Batch.get`: binary search the node; on an equal key return
the block at that key's seq (through the batch); if the node is a leaf
return null; otherwise descend at the insertion point. -/
def getWalkF (log : Log) (k : Bytes) : Nat → MatNode → Option (Option NodeRec)
  | 0, _ => none
  | fuel + 1, n =>
    match bsearchTop log n k with
    | none => none
    | some (Sum.inl mid) =>
      match n.keys[mid]? with
      | none => none
      | some kr =>
        match getBlockL log kr.seq with
        | none => none
        | some e => some (some e)
    | some (Sum.inr i) =>
      if n.children.length = 0 then some none
      else
        match matChild log n i with
        | none => none
        | some c => getWalkF log k fuel c

/-- `Batch.get(key)` as one operation on the log: `ready` runs first (via
`getRoot`), a null root answers null, otherwise the walk runs.  Result
`none` is an error, `some none` a null answer, `some (some e)` the found
block entry. -/
def getOp (log : Log) (k : Bytes) : Log × Option (Option NodeRec) :=
  let l1 := ready log
  match getRootL l1 with
  | none => (l1, none)
  | some none => (l1, some none)
  | some (some root) => (l1, getWalkF l1 k l1.length root)

/-! ## `createReadStream` -/

/-- One frame of the scan stack: the per-node counter `i` (parity selects
key or child, `i >> 1` the position) and the node. -/
structure Frame where
  i : Nat
  node : MatNode

/-- The `open` loop: from the root, descend into child 0 repeatedly; every
internal node's frame is pushed with its counter already advanced past the
"descend into child 0" step, the leaf's frame with `i = 0`.  The stack's
top is the head of the list. -/
def scanOpenF (log : Log) : Nat → MatNode → List Frame → Option (List Frame)
  | 0, _, _ => none
  | fuel + 1, node, acc =>
    if node.children.length = 0 then some (⟨0, node⟩ :: acc)
    else
      match matChild log node 0 with
      | none => none
      | some c => scanOpenF log fuel c (⟨1, node⟩ :: acc)

/-- `open` of `createReadStream`: load the root and descend.  A null root is
dereferenced by the source (`node.children` on `null`), which throws — the
error case. -/
def scanOpenTop (log : Log) : Option (List Frame) :=
  match getRootL log with
  | none => none
  | some none => none
  | some (some root) => scanOpenF log log.length root []

/-- The `next` loop of the stream, iterated to exhaustion, collecting every
emitted block entry in order: read the top frame's counter, advance it; an
even count descends into the child at `i >> 1` (skipped on a leaf), an odd
count emits the key at `i >> 1`, popping the frame once the position passes
the last key; an empty stack ends the stream. -/
def scanRunF (log : Log) : Nat → List Frame → Option (List NodeRec)
  | 0, _ => none
  | _ + 1, [] => some []
  | fuel + 1, top :: rest =>
    let isKey := top.i % 2 = 1
    let nidx := top.i / 2
    if isKey then
      if top.node.keys.length ≤ nidx then scanRunF log fuel rest
      else
        match top.node.keys[nidx]? with
        | none => none
        | some kr =>
          match getBlockL log kr.seq with
          | none => none
          | some e => (scanRunF log fuel (⟨top.i + 1, top.node⟩ :: rest)).map (e :: ·)
    else
      if top.node.children.length = 0 then
        scanRunF log fuel (⟨top.i + 1, top.node⟩ :: rest)
      else
        match matChild log top.node nidx with
        | none => none
        | some c => scanRunF log fuel (⟨0, c⟩ :: ⟨top.i + 1, top.node⟩ :: rest)

/-- Fuel that suffices for a full scan of any tree this log can hold. -/
def scanFuel (log : Log) : Nat := 16 * log.length * log.length + 16

/-- `createReadStream` as one operation: `ready` runs first (via `getRoot`
in `open`), then the stream is driven to its end, returning every emitted
block entry in order (`none` when the stream errors). -/
def scanOp (log : Log) : Log × Option (List NodeRec) :=
  let l1 := ready log
  match scanOpenTop l1 with
  | none => (l1, none)
  | some st => (l1, scanRunF l1 (scanFuel l1) st)

end YoloBTree

namespace YoloBTree

/-! ## The batch block cache, with the reads instrumented

For the claim about the per-operation block cache the reads themselves are
what matters, so here `Batch.get` is modelled again with every log read
recorded in a trace, following the source's object graph precisely:

* `Batch.getBlock(seq)` consults the batch's `blocks` map and stores what it
  loads (`batchGetBlockT`).
* `BTree.getBlock(seq, batch)` always reads the log; the `BlockEntry` it
  creates carries `batch` as its back-reference.  But `BTree.getRoot`
  passes `this` — the tree, not the batch — when loading the root block
  (and `BTree.getKey`/`BTree.getBlock` default their batch to the tree), so
  every `BlockEntry` materialised during the walk has the *tree* as its
  back-reference, and every `KeyRef`/`ChildRef` resolution through
  `block.tree` is an uncached read (`treeGetBlockT`).  Only the final
  `this.getBlock(keys[mid].seq)` of `Batch.get` goes through the cache. -/

/-- The state of one `Batch.get`: the seqs present in the batch's block map,
and the trace of log reads (each one entry decoded), in order. -/
structure BState where
  cache : List Nat
  trace : List Nat
deriving DecidableEq

/-- `BTree.getBlock`: always a log read. -/
def treeGetBlockT (log : Log) (st : BState) (seq : Nat) : Option (NodeRec × BState) :=
  (getBlockL log seq).map fun e => (e, ⟨st.cache, st.trace ++ [seq]⟩)

/-- `Batch.getBlock`: served from the block map when present, otherwise a
log read that is then stored in the map. -/
def batchGetBlockT (log : Log) (st : BState) (seq : Nat) : Option (NodeRec × BState) :=
  if seq ∈ st.cache then (getBlockL log seq).map fun e => (e, st)
  else (getBlockL log seq).map fun e => (e, ⟨st.cache ++ [seq], st.trace ++ [seq]⟩)

/-- `TreeNode.getKey` during a `Batch.get`: the slot's cached bytes, or the
own block's key on the same-entry short-circuit (no read), or
`block.tree.getKey(seq)` — which, the back-reference being the tree, is an
uncached read. -/
def getKeyT (log : Log) (st : BState) (n : MatNode) (i : Nat) : Option (Bytes × BState) :=
  match n.keys[i]? with
  | none => none
  | some kr =>
    match kr.value with
    | some v => some (v, st)
    | none =>
      if n.blockSeq = some kr.seq then n.blockKey.map fun b => (b, st)
      else (treeGetBlockT log st kr.seq).map fun r => (r.1.key, r.2)

/-- The binary-search loop of `Batch.get`, with instrumented key reads. -/
def bsearchT (log : Log) (n : MatNode) (key : Bytes) :
    Nat → Nat → Nat → BState → Option ((Nat ⊕ Nat) × BState)
  | 0, _, _, _ => none
  | fuel + 1, s, e, st =>
    if s < e then
      let mid := (s + e) / 2
      match getKeyT log st n mid with
      | none => none
      | some (kb, st1) =>
        let c := cmp key kb
        if c = 0 then some (Sum.inl mid, st1)
        else if c < 0 then bsearchT log n key fuel s mid st1
        else bsearchT log n key fuel (mid + 1) e st1
    else some (Sum.inr s, st)

/-- `TreeNode.getChildNode` during a `Batch.get`: the slot's cached node, or
the own block on the same-entry short-circuit (no read), or
`block.tree.getBlock(seq)` — an uncached read. -/
def matChildT (log : Log) (st : BState) (n : MatNode) (i : Nat) : Option (MatNode × BState) :=
  match n.children[i]? with
  | none => none
  | some (_, _, some c) => some (c, st)
  | some (s, o, none) =>
    if n.blockSeq = some s then
      (getBlockL log s).bind fun e => (getTreeNodeL e s o).map fun c => (c, st)
    else
      (treeGetBlockT log st s).bind fun r => (getTreeNodeL r.1 s o).map fun c => (c, r.2)

/-- The walk of `Batch.get`, with instrumented reads; only the final block
fetch for a found key goes through the batch's map. -/
def getWalkT (log : Log) (k : Bytes) : Nat → MatNode → BState → Option (Option NodeRec × BState)
  | 0, _, _ => none
  | fuel + 1, n, st =>
    match bsearchT log n k (n.keys.length + 1) 0 n.keys.length st with
    | none => none
    | some (Sum.inl mid, st1) =>
      match n.keys[mid]? with
      | none => none
      | some kr => (batchGetBlockT log st1 kr.seq).map fun r => (some r.1, r.2)
    | some (Sum.inr i, st1) =>
      if n.children.length = 0 then some (none, st1)
      else (matChildT log st1 n i).bind fun r => getWalkT log k fuel r.1 r.2

/-- `Batch.get(key)` with its reads instrumented: `ready`, then the root
block is loaded through `BTree.getRoot` — which passes the tree itself, not
the batch, so this read is not stored in the batch's map — and the walk
runs from a fresh batch state. -/
def getOpT (log : Log) (k : Bytes) : Option (Option NodeRec × BState) :=
  let l1 := ready log
  if l1.length < 2 then some (none, ⟨[], []⟩)
  else
    (treeGetBlockT l1 ⟨[], []⟩ (l1.length - 1)).bind fun r =>
      (getTreeNodeL r.1 (l1.length - 1) 0).bind fun root =>
        getWalkT l1 k l1.length root r.2

end YoloBTree

namespace YoloBTree

/-! ## Basic facts about the key order -/

theorem lexLt_irrefl (a : Bytes) : lexLt a a = false := by
  induction a with
  | nil => rfl
  | cons x xs ih => simp [lexLt, ih]

theorem lexLt_asymm {a b : Bytes} (h : lexLt a b = true) : lexLt b a = false := by
  induction a generalizing b with
  | nil =>
    cases b with
    | nil => simp [lexLt] at h
    | cons y ys => rfl
  | cons x xs ih =>
    cases b with
    | nil => simp [lexLt] at h
    | cons y ys =>
      simp only [lexLt] at h ⊢
      rcases Nat.lt_trichotomy x y with hxy | hxy | hxy
      · simp [hxy, Nat.not_lt_of_lt hxy]
      · subst hxy
        simp [Nat.lt_irrefl] at h ⊢
        exact ih h
      · simp [hxy, Nat.not_lt_of_lt hxy] at h

theorem lexLt_trans {a b c : Bytes} (hab : lexLt a b = true) (hbc : lexLt b c = true) :
    lexLt a c = true := by
  induction a generalizing b c with
  | nil =>
    cases c with
    | nil =>
      cases b with
      | nil => exact hab
      | cons y ys => simp [lexLt] at hbc
    | cons z zs => rfl
  | cons x xs ih =>
    cases b with
    | nil => simp [lexLt] at hab
    | cons y ys =>
      cases c with
      | nil => simp [lexLt] at hbc
      | cons z zs =>
        simp only [lexLt] at hab hbc ⊢
        rcases Nat.lt_trichotomy x y with hxy | hxy | hxy
        · rcases Nat.lt_trichotomy y z with hyz | hyz | hyz
          · simp [Nat.lt_trans hxy hyz]
          · subst hyz; simp [hxy]
          · simp [hyz, Nat.not_lt_of_lt hyz] at hbc
        · subst hxy
          rcases Nat.lt_trichotomy x z with hyz | hyz | hyz
          · simp [hyz]
          · subst hyz
            simp [Nat.lt_irrefl] at hab hbc ⊢
            exact ih hab hbc
          · simp [hyz, Nat.not_lt_of_lt hyz] at hbc
        · simp [hxy, Nat.not_lt_of_lt hxy] at hab

theorem lexLt_total {a b : Bytes} (hab : lexLt a b = false) (hba : lexLt b a = false) :
    a = b := by
  induction a generalizing b with
  | nil =>
    cases b with
    | nil => rfl
    | cons y ys => simp [lexLt] at hab
  | cons x xs ih =>
    cases b with
    | nil => simp [lexLt] at hba
    | cons y ys =>
      simp only [lexLt] at hab hba
      rcases Nat.lt_trichotomy x y with hxy | hxy | hxy
      · simp [hxy] at hab
      · subst hxy
        simp [Nat.lt_irrefl] at hab hba
        exact congrArg (x :: ·) (ih hab hba)
      · simp [hxy, Nat.not_lt_of_lt hxy] at hba

theorem cmp_eq_zero_iff {a b : Bytes} : cmp a b = 0 ↔ a = b := by
  constructor
  · intro h
    unfold cmp at h
    by_cases hab : lexLt a b = true
    · simp [hab] at h
    · by_cases hba : lexLt b a = true
      · simp [hab, hba] at h
      · exact lexLt_total (Bool.not_eq_true _ ▸ hab) (Bool.not_eq_true _ ▸ hba)
  · rintro rfl
    unfold cmp
    simp [lexLt_irrefl]

theorem cmp_neg_iff {a b : Bytes} : cmp a b < 0 ↔ lexLt a b = true := by
  unfold cmp
  by_cases hab : lexLt a b = true
  · simp [hab]
  · by_cases hba : lexLt b a = true <;> simp [hab, hba]

theorem cmp_pos_iff {a b : Bytes} : 0 < cmp a b ↔ lexLt b a = true := by
  unfold cmp
  by_cases hab : lexLt a b = true
  · simp [hab, lexLt_asymm hab]
  · by_cases hba : lexLt b a = true <;> simp [hab, hba]

/-! ## Claim theorems: the concretely settled claims -/

/-- C4: the claim says `ready()` appends the header iff the log length is 0
and is idempotent once the header is present.  The source's guard is
`feed.length > 1`, so on a log of length 1 — exactly the header — `ready`
appends a second header: it is not idempotent, and it appends at length 1,
not only at length 0. -/
theorem ready_appends_on_header_only_log :
    ready ([] : Log) = [Block.header] ∧
    ready [Block.header] = [Block.header, Block.header] ∧
    ready (ready ([] : Log)) ≠ ready ([] : Log) := by decide

/-- C7: the claim says that on a log holding at most the header — including
right after `ready()` — `get` answers null and leaves the log at length 1.
On a fresh log that holds; but on a header-only log, `get`'s own `ready`
appends a second header (length 2), and the root load then decodes the
header record at seq 1 as a `Node` record, which fails: the `get` errors
instead of answering null, and the log is left at length 2. -/
theorem get_on_header_only_log_errors :
    getOp [Block.header] [97] = ([Block.header, Block.header], none) ∧
    getOp ([] : Log) [97] = ([Block.header], some none) := by decide

/-- C8: the claim says a scan of an empty tree emits nothing and ends
cleanly.  `open` of `createReadStream` dereferences the null root
(`node.children` with `node = null` throws), so the stream errors on a
fresh log; on a header-only log it errors through the `ready` bug instead
(the second header is decoded as the root and fails). -/
theorem scan_on_empty_tree_errors :
    scanOp ([] : Log) = ([Block.header], none) ∧
    scanOp [Block.header] = ([Block.header, Block.header], none) := by decide

/-- C1: the claim's round-trip includes the very first put into an empty
tree (S2: `put("b", "B")`, then `get("b").value = "B"`).  The first-insert
branch of `Batch.put` appends `{ key, index }` without the `value` field,
so the put succeeds but `get("b")` returns the block entry with no value. -/
theorem first_put_get_returns_no_value :
    putOp ([] : Log) [98] (some [66]) =
      ([Block.header, Block.node ⟨[98], none, [⟨[1], []⟩]⟩], true) ∧
    (getOp [Block.header, Block.node ⟨[98], none, [⟨[1], []⟩]⟩] [98]).2 =
      some (some ⟨[98], none, [⟨[1], []⟩]⟩) := by decide

/-- C2: the claim pairs every yielded key with its latest value.  After the
single successful put `put("b", "B")` the scan yields exactly one block
entry, whose key is `"b"` but whose value is absent — the first-insert
branch dropped it — not `"B"`. -/
theorem scan_after_first_put_lacks_value :
    putOp ([] : Log) [98] (some [66]) =
      ([Block.header, Block.node ⟨[98], none, [⟨[1], []⟩]⟩], true) ∧
    (scanOp [Block.header, Block.node ⟨[98], none, [⟨[1], []⟩]⟩]).2 =
      some [⟨[98], none, [⟨[1], []⟩]⟩] := by decide

/-- C5: the claim says every block load for an already-loaded seq is served
from the batch's cache — including the root block and the walk's loads.
`BTree.getRoot` passes the tree itself instead of the batch, so the root
load is never stored in the batch's map, and on `get("b")` after
`put("b", "B")` the lone data entry (seq 1) is read and decoded twice in
one operation: once for the root, once for the found key's block. -/
theorem get_reads_same_entry_twice :
    getOpT (putOp ([] : Log) [98] (some [66])).1 [98] =
      some (some ⟨[98], none, [⟨[1], []⟩]⟩, ⟨[1], [1, 1]⟩) ∧
    ¬ ([1, 1] : List Nat).Nodup := by decide

/-- C3 counterexample: a successful put does not always grow the log by
exactly 1: the first put on a fresh log appends the header (through
`ready`) and then its data entry — the length goes from 0 to 2. -/
theorem first_put_appends_two_records :
    (putOp ([] : Log) [98] (some [66])).2 = true ∧
    (putOp ([] : Log) [98] (some [66])).1.length = 2 := by decide

/-- C10: the claim says a valueless `put(k)` always succeeds with exactly
one appended entry.  On a header-only log (reachable: any operation on a
fresh feed leaves exactly the header), the put's `ready` appends a second
header and the root load then fails to decode it, so the put fails — after
having mutated the log. -/
theorem put_without_value_on_header_only_fails :
    putOp [Block.header] [97] none = ([Block.header, Block.header], false) := by decide

/-- C6 counterexample: after `put("a","1"); put("b","2"); put("c","3")` the
snapshot in the last entry is already a split tree — a root with one key
and two leaf children, every level holding exactly one key — so no leaf
holds 3 keys after the third put, and the split happened on the third put,
not the fourth.  (`insertKey` reports fullness at `MAX_CHILDREN = 3` keys
*after* the insert, so the third insert into the leaf triggers the split.) -/
theorem third_put_already_split :
    runPuts [([97], some [49]), ([98], some [50]), ([99], some [51])] =
      some [Block.header,
            Block.node ⟨[97], none, [⟨[1], []⟩]⟩,
            Block.node ⟨[98], some [50], [⟨[1, 2], []⟩]⟩,
            Block.node ⟨[99], some [51],
              [⟨[2], [(3, 1), (3, 2)]⟩, ⟨[1], []⟩, ⟨[3], []⟩]⟩] ∧
    ([⟨[2], [(3, 1), (3, 2)]⟩, ⟨[1], []⟩, ⟨[3], []⟩] : List Level).all
      (fun lv => lv.keys.length == 1) = true := by decide

/-- C6 (amended): the leaf holds 2 keys after the second put — the second
put's entry embeds the single level `{ keys: [1, 2], children: [] }` — and
the leaf splits on the third put, whose entry embeds a three-level index
with an internal root holding the median.  The fourth put then inserts
into a leaf of the split tree without any further split: its entry's index
has a one-key root and the updated two-key right leaf (the untouched left
leaf stays a reference into the third entry). -/
theorem leaf_splits_on_third_put :
    runPuts [([97], some [49]), ([98], some [50])] =
      some [Block.header,
            Block.node ⟨[97], none, [⟨[1], []⟩]⟩,
            Block.node ⟨[98], some [50], [⟨[1, 2], []⟩]⟩] ∧
    (runPuts [([97], some [49]), ([98], some [50]), ([99], some [51])]).bind
        (fun l => (getBlockL l 3).map NodeRec.index) =
      some [⟨[2], [(3, 1), (3, 2)]⟩, ⟨[1], []⟩, ⟨[3], []⟩] ∧
    (runPuts [([97], some [49]), ([98], some [50]), ([99], some [51]),
              ([100], some [52])]).bind
        (fun l => (getBlockL l 4).map (fun e => (e.index.map (fun lv => lv.keys.length)))) =
      some [1, 2] := by decide

end YoloBTree

namespace YoloBTree

/-! ## The frame property of `put`: one data append -/

/-- `_append` only ever extends the log by the single record it builds. -/
theorem appendNode_shape (l1 : Log) (root : MatNode) (seq : Nat) (k : Bytes)
    (v : Option Bytes) (l2 : Log) (h : appendNode l1 root seq k v = some l2) :
    ∃ e, l2 = l1 ++ [Block.node e] := by
  unfold appendNode at h
  rcases hb : buildIndexF seq (l1.length + 2) root [] with _ | ⟨idx, off⟩
  · rw [hb] at h; exact absurd h (by simp)
  · rw [hb] at h
    simp only at h
    rcases hf : fillIdx idx with _ | levels
    · rw [hf] at h; exact absurd h (by simp)
    · rw [hf] at h
      simp only [Option.map_some'] at h
      exact ⟨_, (Option.some_inj.mp h).symm⟩

/-- Every path through `putOp` either appends exactly one data record to the
readied log and succeeds, or fails leaving the readied log untouched. -/
theorem putOp_shape (log : Log) (k : Bytes) (v : Option Bytes) :
    (∃ e, putOp log k v = (ready log ++ [Block.node e], true)) ∨
    putOp log k v = (ready log, false) := by
  unfold putOp
  rcases h1 : getRootL (ready log) with _ | _ | root
  · right; simp [h1]
  · left
    refine ⟨⟨k, none, [⟨[(ready log).length], []⟩]⟩, ?_⟩
    simp [h1]
  · rcases h2 : putStepF (ready log) (ready log).length k (ready log).length root with _ | ur
    · right; simp [h1, h2]
    · cases ur with
      | done r =>
        rcases h3 : appendNode (ready log) r (ready log).length k v with _ | l2
        · right; simp [h1, h2, h3]
        · obtain ⟨e, he⟩ := appendNode_shape _ _ _ _ _ _ h3
          left; exact ⟨e, by simp [h1, h2, h3, he]⟩
      | split l m r =>
        rcases h3 : appendNode (ready log)
            (MatNode.mk none none [m] [(0, 0, some l), (0, 0, some r)])
            (ready log).length k v with _ | l2
        · right; simp [h1, h2, h3]
        · obtain ⟨e, he⟩ := appendNode_shape _ _ _ _ _ _ h3
          left; exact ⟨e, by simp [h1, h2, h3, he]⟩

/-- C3 (amended): a successful `put` appends exactly one data record beyond
what its `ready()` appended (`ready` adds the header when the log length is
`≤ 1`, so the first put on a fresh log grows the log by 2): the final log
extends the readied log by one data record, so on a log of length `≥ 2` —
where `ready` is the identity — the length grows by exactly 1; and a put
that fails before reaching its append leaves the log exactly as `ready`
left it. -/
theorem put_appends_exactly_one_entry (log : Log) (k : Bytes) (v : Option Bytes) :
    ((putOp log k v).2 = true →
      (putOp log k v).1.length = (ready log).length + 1 ∧
      (putOp log k v).1.take (ready log).length = ready log ∧
      ∃ e, (putOp log k v).1 = ready log ++ [Block.node e]) ∧
    ((putOp log k v).2 = false → (putOp log k v).1 = ready log) ∧
    (2 ≤ log.length → ready log = log) := by
  refine ⟨?_, ?_, ?_⟩
  · intro hok
    rcases putOp_shape log k v with ⟨e, he⟩ | he
    · rw [he]
      refine ⟨by simp, List.take_left _ _, e, rfl⟩
    · rw [he] at hok
      exact absurd hok (by simp)
  · intro hfail
    rcases putOp_shape log k v with ⟨e, he⟩ | he
    · rw [he] at hfail
      exact absurd hfail (by simp)
    · rw [he]
  · intro hlen
    unfold ready
    rw [if_pos (by omega)]

/-- Witness for the amended C3 at a concrete successful put on a length-2
log: the put succeeds and the log grows by exactly one record. -/
theorem put_appends_exactly_one_entry_witness :
    (putOp [Block.header, Block.node ⟨[98], none, [⟨[1], []⟩]⟩] [99] none).2 = true ∧
    (putOp [Block.header, Block.node ⟨[98], none, [⟨[1], []⟩]⟩] [99] none).1.length =
      (ready [Block.header, Block.node ⟨[98], none, [⟨[1], []⟩]⟩]).length + 1 :=
  ⟨by decide,
   ((put_appends_exactly_one_entry
      [Block.header, Block.node ⟨[98], none, [⟨[1], []⟩]⟩] [99] none).1 (by decide)).1⟩

end YoloBTree

namespace YoloBTree

/-! ## The split rule -/

/-- Popping `k` elements off the end of `l` onto `acc` keeps the first
`l.length - k` elements and moves the last `k`, reversed, onto `acc`. -/
theorem popMany_eq {α : Type _} (k : Nat) :
    ∀ (l acc : List α), k ≤ l.length →
      popMany l acc k = (l.take (l.length - k), acc ++ (l.drop (l.length - k)).reverse) := by
  induction k with
  | zero =>
    intro l acc _
    simp [popMany]
  | succ m ih =>
    intro l acc h
    have hne : l ≠ [] := by
      intro h0
      subst h0
      simp at h
    have hlen : l.dropLast.length = l.length - 1 := List.length_dropLast l
    have step : popMany l acc (m + 1) = popMany l.dropLast (acc ++ [l.getLast hne]) m := by
      have hq := List.getLast?_eq_getLast l hne
      simp [popMany, hq]
    rw [step, ih l.dropLast (acc ++ [l.getLast hne]) (by omega)]
    have hidx : l.dropLast.length - m = l.length - (m + 1) := by omega
    congr 1
    · rw [hidx, List.dropLast_eq_take, List.take_take]
      have hmin : min (l.length - (m + 1)) (l.length - 1) = l.length - (m + 1) := by omega
      rw [hmin]
    · rw [hidx]
      have hsplit : l.drop (l.length - (m + 1)) =
          l.dropLast.drop (l.length - (m + 1)) ++ [l.getLast hne] := by
        have hl : l = l.dropLast ++ [l.getLast hne] := (List.dropLast_append_getLast hne).symm
        calc l.drop (l.length - (m + 1))
            = (l.dropLast ++ [l.getLast hne]).drop (l.length - (m + 1)) := by rw [← hl]
          _ = l.dropLast.drop (l.length - (m + 1)) ++ [l.getLast hne] :=
              List.drop_append_of_le_length (by omega)
      rw [hsplit, List.reverse_append]
      simp

/-- C9: `split()` with `h = ⌊keys.length / 2⌋` hands the last `h` keys, in
order, to the fresh right node; the median is the key just before them
(position `keys.length − h − 1`); the node itself keeps the first
`keys.length − h − 1` keys (and its block back-reference); and the child
slots — when the node has any, `keys.length + 1` of them — are divided the
same way: the last `h + 1` to the right node, the rest kept.  (For a leaf
both sides of the child equations are the empty list.) -/
theorem split_halves (n : MatNode) (h1 : 1 ≤ n.keys.length)
    (h2 : n.children = [] ∨ n.children.length = n.keys.length + 1) :
    (splitM n).map (fun t => t.2.2.keys) =
      some (n.keys.drop (n.keys.length - n.keys.length / 2)) ∧
    (splitM n).map (fun t => t.2.1) = n.keys[n.keys.length - n.keys.length / 2 - 1]? ∧
    (splitM n).map (fun t => t.1.keys) =
      some (n.keys.take (n.keys.length - n.keys.length / 2 - 1)) ∧
    (splitM n).map (fun t => t.2.2.children) =
      some (n.children.drop (n.children.length - (n.keys.length / 2 + 1))) ∧
    (splitM n).map (fun t => t.1.children) =
      some (n.children.take (n.children.length - (n.keys.length / 2 + 1))) ∧
    (splitM n).map (fun t => t.1.blockSeq) = some n.blockSeq ∧
    (splitM n).map (fun t => t.1.blockKey) = some n.blockKey := by
  have hlenK : n.keys.length / 2 ≤ n.keys.length := Nat.div_le_self _ _
  have hlt : n.keys.length / 2 < n.keys.length := Nat.div_lt_self (by omega) (by omega)
  have e1 : popMany n.keys [] (n.keys.length / 2) =
      (n.keys.take (n.keys.length - n.keys.length / 2),
       (n.keys.drop (n.keys.length - n.keys.length / 2)).reverse) := by
    rw [popMany_eq _ _ _ hlenK]
    simp
  obtain ⟨med, hmed⟩ : ∃ x, n.keys[n.keys.length - n.keys.length / 2 - 1]? = some x := by
    have hb : n.keys.length - n.keys.length / 2 - 1 < n.keys.length := by omega
    exact ⟨_, List.getElem?_eq_getElem hb⟩
  have e2 : (n.keys.take (n.keys.length - n.keys.length / 2)).getLast? = some med := by
    rw [List.getLast?_eq_getElem?, List.length_take]
    have hmin : min (n.keys.length - n.keys.length / 2) n.keys.length =
        n.keys.length - n.keys.length / 2 := by omega
    rw [hmin, List.getElem?_take, if_pos (by omega)]
    exact hmed
  have e3 : (n.keys.take (n.keys.length - n.keys.length / 2)).dropLast =
      n.keys.take (n.keys.length - n.keys.length / 2 - 1) := by
    rw [List.dropLast_eq_take, List.length_take, List.take_take]
    have hmin : min (min (n.keys.length - n.keys.length / 2) n.keys.length - 1)
        (n.keys.length - n.keys.length / 2) = n.keys.length - n.keys.length / 2 - 1 := by
      omega
    rw [hmin]
  have main : splitM n = some
      (MatNode.mk n.blockSeq n.blockKey
        (n.keys.take (n.keys.length - n.keys.length / 2 - 1))
        (n.children.take (n.children.length - (n.keys.length / 2 + 1))),
       med,
       MatNode.mk none none
        (n.keys.drop (n.keys.length - n.keys.length / 2))
        (n.children.drop (n.children.length - (n.keys.length / 2 + 1)))) := by
    rcases h2 with hc | hc
    · simp only [splitM, e1, e2, e3, hc]
      simp
    · have hc0 : n.children.length ≠ 0 := by omega
      have e4 : popMany n.children [] (n.keys.length / 2 + 1) =
          (n.children.take (n.children.length - (n.keys.length / 2 + 1)),
           (n.children.drop (n.children.length - (n.keys.length / 2 + 1))).reverse) := by
        rw [popMany_eq _ _ _ (by omega)]
        simp
      simp only [splitM, e1, e2, e3, e4, hc0]
      simp [hc0]
  rw [main, hmed]
  simp [MatNode.keys, MatNode.children, MatNode.blockSeq, MatNode.blockKey]

/-- Witness for `split_halves` at a three-key leaf: the hypotheses hold and
the key division is as stated. -/
theorem split_halves_witness :
    1 ≤ (MatNode.mk none none [⟨1, none⟩, ⟨2, none⟩, ⟨3, none⟩] []).keys.length ∧
    ((MatNode.mk none none [⟨1, none⟩, ⟨2, none⟩, ⟨3, none⟩] []).children = [] ∨
     (MatNode.mk none none [⟨1, none⟩, ⟨2, none⟩, ⟨3, none⟩] []).children.length =
       (MatNode.mk none none [⟨1, none⟩, ⟨2, none⟩, ⟨3, none⟩] []).keys.length + 1) ∧
    (splitM (MatNode.mk none none [⟨1, none⟩, ⟨2, none⟩, ⟨3, none⟩] [])).map
        (fun t => t.2.2.keys) =
      some ((MatNode.mk none none [⟨1, none⟩, ⟨2, none⟩, ⟨3, none⟩] []).keys.drop
        ((MatNode.mk none none [⟨1, none⟩, ⟨2, none⟩, ⟨3, none⟩] []).keys.length -
         (MatNode.mk none none [⟨1, none⟩, ⟨2, none⟩, ⟨3, none⟩] []).keys.length / 2)) :=
  ⟨by decide, Or.inl rfl,
   (split_halves (MatNode.mk none none [⟨1, none⟩, ⟨2, none⟩, ⟨3, none⟩] [])
     (by decide) (Or.inl rfl)).1⟩

end YoloBTree
